import Mathlib

/-!
Verification of `pySecMaster/cross_validator.py` (the price cross validator).

The development shallowly embeds the source: the per-field weighted voting
loop (`field_consensus` dictionary, exclusion check, weight lookup and
`max(field_consensus.keys())` selection), the per-period assembler with its
`try/except KeyError/finally` extraction, and the delete-then-append
persistence protocol of `cross_validate`.  Database collaborator routines
(`query_all_tsid_prices`, `delete_sql_table_rows`, `df_to_sql`,
`retrieve_data_vendor_id`) live outside the sources and are modelled from
their documented contracts.
-/

namespace PySecMaster

/-- The five price fields iterated by `period_df.iterrows()`: the columns
`open, high, low, close, volume` of the price table. -/
inductive Field where
  | fOpen | fHigh | fLow | fClose | fVolume
deriving DecidableEq, Repr

/-- One stored row of the price table: columns
`{tsid, date, data_vendor_id, open, high, low, close, volume}`. -/
structure Row where
  tsid : String
  date : Nat
  vendor : Nat
  vOpen : Rat
  vHigh : Rat
  vLow : Rat
  vClose : Rat
  vVolume : Rat
deriving DecidableEq, Repr

/-- Value of a row at one price field. -/
def Row.fieldVal (r : Row) : Field → Rat
  | .fOpen => r.vOpen
  | .fHigh => r.vHigh
  | .fLow => r.vLow
  | .fClose => r.vClose
  | .fVolume => r.vVolume

/-- Exceptions the embedded code can raise: `keyError v` models the
`KeyError` raised by `source_weight[0]` when vendor `v` has no weight row;
`keyErrorField f` the same `KeyError` when the weight lookup is keyed by
the price-field NAME `f` instead of a vendor id (the mis-oriented stale
frame of lines 94-148); `emptyMax` the `ValueError` raised by `max()` on
an empty collection; and `nameError` the `NameError` from reading the
unbound local `period_df`. -/
inductive VError where
  | keyError (vendor : Nat)
  | keyErrorField (f : Field)
  | emptyMax
  | nameError
deriving DecidableEq, Repr

/-- Equality of embedded results is decidable, so concrete runs can be
checked by evaluation. -/
def exceptDecEq {ε α : Type} [DecidableEq ε] [DecidableEq α] :
    (a b : Except ε α) → Decidable (a = b)
  | Except.ok a, Except.ok b =>
    if h : a = b then Decidable.isTrue (by rw [h])
    else Decidable.isFalse (fun hh => h (Except.ok.inj hh))
  | Except.ok _, Except.error _ =>
    Decidable.isFalse (fun hh => Except.noConfusion hh)
  | Except.error _, Except.ok _ =>
    Decidable.isFalse (fun hh => Except.noConfusion hh)
  | Except.error e, Except.error f =>
    if h : e = f then Decidable.isTrue (by rw [h])
    else Decidable.isFalse (fun hh => h (Except.error.inj hh))

instance {ε α : Type} [DecidableEq ε] [DecidableEq α] :
    DecidableEq (Except ε α) :=
  exceptDecEq

/-- Weight lookup
`weights_df.loc[weights_df['data_vendor_id'] == v, 'consensus_weight'][0]`
(lines 119-121): the consensus weight of the matching row of the weight
table, `none` when no row matches (then `source_weight[0]` raises). -/
def lookupWeight (wts : List (Nat × Rat)) (vendor : Nat) : Option Rat :=
  (wts.find? (fun w => w.1 == vendor)).map (fun w => w.2)

/-- Lookup in the `field_consensus` dictionary (value keyed). -/
def alookup (fc : List (Rat × Rat)) (v : Rat) : Option Rat :=
  match fc with
  | [] => none
  | p :: rest => if p.1 = v then some p.2 else alookup rest v

/-- The `field_consensus[value] += weight` update (line 129). -/
def bump (fc : List (Rat × Rat)) (v w : Rat) : List (Rat × Rat) :=
  fc.map (fun p => if p.1 = v then (p.1, p.2 + w) else p)

/-- One iteration of the `for source_data in field_data.iteritems()` loop
(lines 110-148): skip excluded sources, look the source's weight up
(raising `KeyError` when absent), then either start the dictionary, add the
weight to a matching value, or insert the value with its weight. -/
def addVote (excl : List Nat) (wts : List (Nat × Rat)) (fc : List (Rat × Rat))
    (sd : Nat × Rat) : Except VError (List (Rat × Rat)) :=
  if sd.1 ∈ excl then Except.ok fc
  else
    match lookupWeight wts sd.1 with
    | none => Except.error (VError.keyError sd.1)
    | some w =>
      if fc.isEmpty then Except.ok [(sd.2, w)]
      else if (alookup fc sd.2).isSome then Except.ok (bump fc sd.2 w)
      else Except.ok (fc ++ [(sd.2, w)])

/-- The `field_consensus` dictionary produced for one (period, field) by
the source loop, starting from the empty dictionary (line 106). -/
def supportMap (excl : List Nat) (wts : List (Nat × Rat))
    (cands : List (Nat × Rat)) : Except VError (List (Rat × Rat)) :=
  cands.foldlM (addVote excl wts) []

/-- Python `max` over a collection: `ValueError` on the empty collection,
otherwise the largest element. -/
def listMax : List Rat → Except VError Rat
  | [] => Except.error VError.emptyMax
  | x :: xs => Except.ok (xs.foldl max x)

/-- Lines 106-152 for one (period, field): build `field_consensus` and take
`consensus_value = max(field_consensus.keys())`. -/
def voteField (excl : List Nat) (wts : List (Nat × Rat))
    (cands : List (Nat × Rat)) : Except VError Rat :=
  match supportMap excl wts cands with
  | Except.error e => Except.error e
  | Except.ok fc => listMax (fc.map Prod.fst)

/-- Candidates that survive the exclusion check. -/
def survivors (excl : List Nat) (cands : List (Nat × Rat)) : List (Nat × Rat) :=
  cands.filter (fun c => decide (c.1 ∉ excl))

/-- Surviving candidates that reported value `v`. -/
def reporting (excl : List Nat) (cands : List (Nat × Rat)) (v : Rat) :
    List (Nat × Rat) :=
  (survivors excl cands).filter (fun c => decide (c.2 = v))

/- ### Basic lemmas about the voter -/

theorem alookup_isSome_iff (fc : List (Rat × Rat)) (v : Rat) :
    (alookup fc v).isSome ↔ v ∈ fc.map Prod.fst := by
  induction fc with
  | nil => simp [alookup]
  | cons p rest ih =>
    by_cases h : p.1 = v
    · simp [alookup, h]
    · simp only [alookup, if_neg h, List.map_cons, List.mem_cons]
      rw [ih]
      constructor
      · exact fun hm => Or.inr hm
      · rintro (hm | hm)
        · exact absurd hm.symm h
        · exact hm

theorem bump_map_fst (fc : List (Rat × Rat)) (v w : Rat) :
    (bump fc v w).map Prod.fst = fc.map Prod.fst := by
  induction fc with
  | nil => rfl
  | cons p rest ih =>
    simp only [bump, List.map_cons] at ih ⊢
    by_cases h : p.1 = v <;> simp [h, ih]

/-- Normal form of a non-excluded, weight-resolvable vote step. -/
theorem addVote_eq (excl : List Nat) (wts : List (Nat × Rat))
    (fc : List (Rat × Rat)) (sd : Nat × Rat) (hx : sd.1 ∉ excl) (w : Rat)
    (hw : lookupWeight wts sd.1 = some w) :
    addVote excl wts fc sd =
      Except.ok (if (alookup fc sd.2).isSome then bump fc sd.2 w
                 else fc ++ [(sd.2, w)]) := by
  unfold addVote
  rw [if_neg hx, hw]
  cases fc with
  | nil => simp [alookup]
  | cons p rest => simp [apply_ite Except.ok]

theorem addVote_excluded (excl : List Nat) (wts : List (Nat × Rat))
    (fc : List (Rat × Rat)) (sd : Nat × Rat) (hx : sd.1 ∈ excl) :
    addVote excl wts fc sd = Except.ok fc := by
  unfold addVote
  rw [if_pos hx]

theorem foldl_max_spec (xs : List Rat) (x : Rat) :
    (xs.foldl max x ∈ x :: xs) ∧ x ≤ xs.foldl max x ∧
      ∀ k ∈ xs, k ≤ xs.foldl max x := by
  induction xs generalizing x with
  | nil => simp
  | cons y ys ih =>
    simp only [List.foldl_cons]
    obtain ⟨hmem, hle, hall⟩ := ih (max x y)
    refine ⟨?_, ?_, ?_⟩
    · rcases List.mem_cons.mp hmem with h | h
      · rcases max_choice x y with hc | hc
        · rw [h, hc]; exact List.mem_cons_self _ _
        · rw [h, hc]; exact List.mem_cons_of_mem _ (List.mem_cons_self _ _)
      · exact List.mem_cons_of_mem _ (List.mem_cons_of_mem _ h)
    · exact le_trans (le_max_left x y) hle
    · intro k hk
      rcases List.mem_cons.mp hk with h | h
      · rw [h]; exact le_trans (le_max_right x y) hle
      · exact hall k h

theorem listMax_spec (l : List Rat) (v : Rat) (h : listMax l = Except.ok v) :
    v ∈ l ∧ ∀ k ∈ l, k ≤ v := by
  cases l with
  | nil => simp [listMax] at h
  | cons x xs =>
    simp only [listMax, Except.ok.injEq] at h
    obtain ⟨hmem, hle, hall⟩ := foldl_max_spec xs x
    subst h
    refine ⟨hmem, ?_⟩
    intro k hk
    rcases List.mem_cons.mp hk with hx | hx
    · exact hx ▸ hle
    · exact hall k hx

/-- C1: For every (period, field) voting round with a non-empty support
map, the consensus value selected and written into the consensus row is the
numerically largest value key present in the support map, regardless of the
aggregated weight behind each value. -/
theorem voteField_selects_largest_supported_value (excl : List Nat)
    (wts : List (Nat × Rat)) (cands : List (Nat × Rat))
    (fc : List (Rat × Rat)) (h : supportMap excl wts cands = Except.ok fc)
    (hne : fc ≠ []) :
    ∃ v, voteField excl wts cands = Except.ok v ∧ v ∈ fc.map Prod.fst ∧
      ∀ k ∈ fc.map Prod.fst, k ≤ v := by
  have hv : voteField excl wts cands = listMax (fc.map Prod.fst) := by
    unfold voteField
    rw [h]
  rw [hv]
  cases hfc : fc.map Prod.fst with
  | nil => exact absurd (List.map_eq_nil_iff.mp hfc) hne
  | cons x xs =>
    exact ⟨xs.foldl max x, rfl, listMax_spec (x :: xs) (xs.foldl max x) rfl⟩

/-- Witness for C1, at the spec's own example: candidates
{(source 1, value 10, weight 20), (source 2, value 12, weight 50)} produce
the value 12 (the largest surviving value), not the highest-weight value. -/
theorem voteField_selects_largest_supported_value_witness :
    voteField [] [(1, 20), (2, 50)] [(1, 10), (2, 12)] = Except.ok 12 ∧
    ∃ v, voteField [] [(1, 20), (2, 50)] [(1, 10), (2, 12)] = Except.ok v ∧
      v ∈ ([((10 : Rat), (20 : Rat)), (12, 50)].map Prod.fst) ∧
      ∀ k ∈ ([((10 : Rat), (20 : Rat)), (12, 50)].map Prod.fst), k ≤ v := by
  constructor
  · rfl
  · exact voteField_selects_largest_supported_value [] [(1, 20), (2, 50)]
      [(1, 10), (2, 12)] [(10, 20), (12, 50)] rfl (by decide)

theorem vbind_ok {α β : Type} (a : α) (f : α → Except VError β) :
    (Except.ok a >>= f) = f a := rfl

theorem vbind_error {α β : Type} (e : VError) (f : α → Except VError β) :
    ((Except.error e : Except VError α) >>= f) = Except.error e := rfl

theorem addVote_missing_weight (excl : List Nat) (wts : List (Nat × Rat))
    (fc : List (Rat × Rat)) (sd : Nat × Rat) (hx : sd.1 ∉ excl)
    (hw : lookupWeight wts sd.1 = none) :
    addVote excl wts fc sd = Except.error (VError.keyError sd.1) := by
  unfold addVote
  rw [if_neg hx, hw]

theorem addVote_error_shape (excl : List Nat) (wts : List (Nat × Rat))
    (fc : List (Rat × Rat)) (sd : Nat × Rat) (e : VError)
    (h : addVote excl wts fc sd = Except.error e) :
    e = VError.keyError sd.1 := by
  unfold addVote at h
  by_cases hx : sd.1 ∈ excl
  · rw [if_pos hx] at h
    exact Except.noConfusion h
  · rw [if_neg hx] at h
    cases hl : lookupWeight wts sd.1 with
    | none =>
      rw [hl] at h
      exact (Except.error.inj h).symm
    | some w =>
      rw [hl] at h
      dsimp only at h
      by_cases he : fc.isEmpty
      · rw [if_pos he] at h
        exact Except.noConfusion h
      · rw [if_neg he] at h
        by_cases hp : (alookup fc sd.2).isSome
        · rw [if_pos hp] at h
          exact Except.noConfusion h
        · rw [if_neg hp] at h
          exact Except.noConfusion h

/- ### C5: exclusion noninterference -/

theorem foldlM_addVote_filter (excl : List Nat) (wts : List (Nat × Rat))
    (cands : List (Nat × Rat)) :
    ∀ fc₀, cands.foldlM (addVote excl wts) fc₀ =
      (survivors excl cands).foldlM (addVote excl wts) fc₀ := by
  induction cands with
  | nil => intro fc₀; rfl
  | cons c cs ih =>
    intro fc₀
    by_cases h : c.1 ∈ excl
    · have hs : survivors excl (c :: cs) = survivors excl cs := by
        simp [survivors, List.filter_cons, h]
      rw [hs, List.foldlM_cons, addVote_excluded excl wts fc₀ c h, vbind_ok]
      exact ih fc₀
    · have hs : survivors excl (c :: cs) = c :: survivors excl cs := by
        simp [survivors, List.filter_cons, h]
      rw [hs, List.foldlM_cons, List.foldlM_cons]
      cases hav : addVote excl wts fc₀ c with
      | error e => rw [vbind_error, vbind_error]
      | ok fc₁ =>
        rw [vbind_ok, vbind_ok]
        exact ih fc₁

/-- C5: Candidates whose source identity is in the exclusion set contribute
nothing: filtering them out before voting, versus leaving them in the
candidate set, yields the identical support map and the identical winning
value for that (period, field). -/
theorem excluded_sources_noninterference (excl : List Nat)
    (wts : List (Nat × Rat)) (cands : List (Nat × Rat)) :
    supportMap excl wts (survivors excl cands) = supportMap excl wts cands ∧
    voteField excl wts (survivors excl cands) = voteField excl wts cands := by
  have hsm : supportMap excl wts (survivors excl cands) =
      supportMap excl wts cands :=
    (foldlM_addVote_filter excl wts cands []).symm
  refine ⟨hsm, ?_⟩
  unfold voteField
  rw [hsm]

/- ### C8: a missing source weight raises, it is not defaulted or skipped -/

theorem foldlM_addVote_error_keyError (excl : List Nat) (wts : List (Nat × Rat))
    (cands : List (Nat × Rat)) :
    ∀ fc₀ e, cands.foldlM (addVote excl wts) fc₀ = Except.error e →
      ∃ u, e = VError.keyError u := by
  induction cands with
  | nil =>
    intro fc₀ e h
    cases h
  | cons c cs ih =>
    intro fc₀ e h
    rw [List.foldlM_cons] at h
    cases hav : addVote excl wts fc₀ c with
    | error e' =>
      rw [hav, vbind_error] at h
      cases h
      exact ⟨c.1, addVote_error_shape excl wts fc₀ c _ hav⟩
    | ok fc₁ =>
      rw [hav, vbind_ok] at h
      exact ih fc₁ e h

theorem foldlM_addVote_missing_weight (excl : List Nat) (wts : List (Nat × Rat))
    (v : Nat) (x : Rat) :
    ∀ (cands : List (Nat × Rat)) fc₀, (v, x) ∈ cands → v ∉ excl →
      lookupWeight wts v = none →
      ∃ e, cands.foldlM (addVote excl wts) fc₀ = Except.error e := by
  intro cands
  induction cands with
  | nil =>
    intro fc₀ h
    cases h
  | cons c cs ih =>
    intro fc₀ hmem hx hw
    rw [List.foldlM_cons]
    cases hav : addVote excl wts fc₀ c with
    | error e => exact ⟨e, by rw [vbind_error]⟩
    | ok fc₁ =>
      rw [vbind_ok]
      rcases List.mem_cons.mp hmem with h | h
      · exfalso
        rw [← h] at hav
        rw [addVote_missing_weight excl wts fc₀ (v, x) hx hw] at hav
        exact Except.noConfusion hav
      · exact ih fc₁ h hx hw

/-- C8: When a non-excluded source identity appearing in a voting round has
no entry in the supplied weight table, the (period, field) computation
raises a KeyError rather than silently defaulting the weight to zero or
silently omitting the source. -/
theorem missing_weight_fails_loudly (excl : List Nat) (wts : List (Nat × Rat))
    (cands : List (Nat × Rat)) (v : Nat) (x : Rat) (hmem : (v, x) ∈ cands)
    (hx : v ∉ excl) (hw : lookupWeight wts v = none) :
    ∃ u, voteField excl wts cands = Except.error (VError.keyError u) := by
  obtain ⟨e, he⟩ := foldlM_addVote_missing_weight excl wts v x cands [] hmem hx hw
  obtain ⟨u, hu⟩ := foldlM_addVote_error_keyError excl wts cands [] e he
  refine ⟨u, ?_⟩
  unfold voteField supportMap
  rw [he, hu]

/-- Witness for C8: source 2 appears with value 12 but has no weight row,
so the round raises a KeyError. -/
theorem missing_weight_fails_loudly_witness :
    ∃ u, voteField [] [(1, 20)] [(1, 10), (2, 12)] =
      Except.error (VError.keyError u) :=
  missing_weight_fails_loudly [] [(1, 20)] [(1, 10), (2, 12)] 2 12
    (by decide) (by decide) rfl

/- ### C9: the support map sums the weights of the reporting sources -/

theorem alookup_bump_eq (fc : List (Rat × Rat)) (v w u : Rat) :
    alookup (bump fc v w) u =
      if u = v then (alookup fc u).map (· + w) else alookup fc u := by
  induction fc with
  | nil => simp [bump, alookup]
  | cons p rest ih =>
    by_cases hpv : p.1 = v
    · by_cases hpu : p.1 = u
      · have huv : u = v := hpu ▸ hpv
        simp [bump, alookup, hpv, hpu, huv]
      · have huv : ¬ u = v := fun hh => hpu (hh ▸ hpv)
        simp only [bump, List.map_cons, if_pos hpv, alookup, if_neg hpu]
        rw [← bump, ih, if_neg huv]
    · by_cases hpu : p.1 = u
      · simp only [bump, List.map_cons, if_neg hpv, alookup, if_pos hpu]
        have huv : ¬ u = v := fun hh => hpv (hpu.trans hh)
        rw [if_neg huv]
      · simp only [bump, List.map_cons, if_neg hpv, alookup, if_neg hpu]
        rw [← bump, ih]

theorem alookup_append_single (fc : List (Rat × Rat)) (k w u : Rat) :
    alookup (fc ++ [(k, w)]) u =
      if (alookup fc u).isSome then alookup fc u
      else if k = u then some w else none := by
  induction fc with
  | nil => simp [alookup]
  | cons p rest ih =>
    by_cases hpu : p.1 = u
    · simp [alookup, hpu]
    · simp only [List.cons_append, alookup, if_neg hpu]
      exact ih

theorem reporting_cons (excl : List Nat) (c : Nat × Rat)
    (cs : List (Nat × Rat)) (v : Rat) :
    reporting excl (c :: cs) v =
      if c.1 ∈ excl then reporting excl cs v
      else if c.2 = v then c :: reporting excl cs v
      else reporting excl cs v := by
  by_cases hx : c.1 ∈ excl
  · simp [reporting, survivors, List.filter_cons, hx]
  · by_cases hv : c.2 = v
    · simp [reporting, survivors, List.filter_cons, hx, hv]
    · simp [reporting, survivors, List.filter_cons, hx, hv]

theorem foldlM_addVote_lookup (excl : List Nat) (wts : List (Nat × Rat))
    (W : Nat → Rat) :
    ∀ (cands : List (Nat × Rat)) (fc₀ fc : List (Rat × Rat)),
      (∀ c ∈ cands, c.1 ∉ excl → lookupWeight wts c.1 = some (W c.1)) →
      cands.foldlM (addVote excl wts) fc₀ = Except.ok fc →
      ∀ v, alookup fc v =
        match alookup fc₀ v with
        | some w => some (w + ((reporting excl cands v).map (fun c => W c.1)).sum)
        | none =>
          if (reporting excl cands v).isEmpty then none
          else some (((reporting excl cands v).map (fun c => W c.1)).sum) := by
  intro cands
  induction cands with
  | nil =>
    intro fc₀ fc _ h v
    cases h
    cases h0 : alookup fc₀ v <;> simp [reporting, survivors]
  | cons c cs ih =>
    intro fc₀ fc hW h v
    rw [List.foldlM_cons] at h
    by_cases hx : c.1 ∈ excl
    · rw [addVote_excluded excl wts fc₀ c hx, vbind_ok] at h
      rw [reporting_cons, if_pos hx]
      exact ih fc₀ fc (fun d hd => hW d (List.mem_cons_of_mem c hd)) h v
    · have hw : lookupWeight wts c.1 = some (W c.1) :=
        hW c (List.mem_cons_self c cs) hx
      rw [addVote_eq excl wts fc₀ c hx (W c.1) hw, vbind_ok] at h
      rw [reporting_cons, if_neg hx]
      by_cases hcv : c.2 = v
      · rw [if_pos hcv]
        by_cases hp : (alookup fc₀ c.2).isSome
        · rw [if_pos hp] at h
          have hres := ih (bump fc₀ c.2 (W c.1)) fc
            (fun d hd => hW d (List.mem_cons_of_mem c hd)) h v
          obtain ⟨w₀, hw₀⟩ := Option.isSome_iff_exists.mp hp
          rw [hcv] at hw₀
          rw [alookup_bump_eq, if_pos hcv.symm, hw₀] at hres
          rw [hres, hw₀]
          simp [add_assoc]
        · rw [if_neg hp] at h
          have h0 : alookup fc₀ v = none := by
            rw [← hcv]
            exact Option.not_isSome_iff_eq_none.mp hp
          have hres := ih (fc₀ ++ [(c.2, W c.1)]) fc
            (fun d hd => hW d (List.mem_cons_of_mem c hd)) h v
          rw [alookup_append_single, h0] at hres
          simp only [Option.isSome_none, Bool.false_eq_true, if_false,
            if_pos hcv] at hres
          rw [h0]
          simp only [List.isEmpty_cons, Bool.false_eq_true, if_false,
            List.map_cons, List.sum_cons]
          exact hres
      · rw [if_neg hcv]
        by_cases hp : (alookup fc₀ c.2).isSome
        · rw [if_pos hp] at h
          have hres := ih (bump fc₀ c.2 (W c.1)) fc
            (fun d hd => hW d (List.mem_cons_of_mem c hd)) h v
          rw [alookup_bump_eq, if_neg (fun hh => hcv hh.symm)] at hres
          exact hres
        · rw [if_neg hp] at h
          have hres := ih (fc₀ ++ [(c.2, W c.1)]) fc
            (fun d hd => hW d (List.mem_cons_of_mem c hd)) h v
          rw [alookup_append_single] at hres
          by_cases h0 : (alookup fc₀ v).isSome
          · rw [if_pos h0] at hres
            exact hres
          · rw [if_neg h0, if_neg hcv] at hres
            rw [Option.not_isSome_iff_eq_none.mp h0]
            exact hres

/-- C9: For every voting round, the support map built from the surviving
(source, value) candidates maps each distinct observed value (grouped by
exact equality) to the sum of the trust weights, looked up per source
identity, of exactly the sources that reported that value. -/
theorem supportMap_sums_weights_by_value (excl : List Nat)
    (wts : List (Nat × Rat)) (cands : List (Nat × Rat))
    (fc : List (Rat × Rat)) (W : Nat → Rat)
    (hW : ∀ c ∈ cands, c.1 ∉ excl → lookupWeight wts c.1 = some (W c.1))
    (h : supportMap excl wts cands = Except.ok fc) (v : Rat) :
    alookup fc v = if (reporting excl cands v).isEmpty then none
      else some (((reporting excl cands v).map (fun c => W c.1)).sum) := by
  have hres := foldlM_addVote_lookup excl wts W cands [] fc hW h v
  simpa [alookup] using hres

theorem supportMap_example_eval :
    supportMap [7] [(1, 20), (2, 50), (7, 9)] [(1, 10), (2, 10), (7, 10)] =
      Except.ok [(10, 70)] := by
  have h1 : supportMap [7] [(1, 20), (2, 50), (7, 9)] [(1, 10), (2, 10), (7, 10)] =
      Except.ok (bump [(10, 20)] 10 50) := rfl
  rw [h1]
  norm_num [bump]

/-- Witness for C9: sources 1 and 2 agree on the value 10, source 7 is
excluded, and the support map credits value 10 with weight 20 + 50. -/
theorem supportMap_sums_weights_by_value_witness :
    alookup [((10 : Rat), (70 : Rat))] 10 =
      if (reporting [7] [(1, 10), (2, 10), (7, 10)] 10).isEmpty then none
      else some (((reporting [7] [(1, 10), (2, 10), (7, 10)] 10).map
        (fun c => (fun n => if n = 1 then (20 : Rat) else 50) c.1)).sum) :=
  supportMap_sums_weights_by_value [7] [(1, 20), (2, 50), (7, 9)]
    [(1, 10), (2, 10), (7, 10)] [(10, 70)]
    (fun n => if n = 1 then 20 else 50) (by decide) supportMap_example_eval 10

/- ### C10: the winner never depends on the weight magnitudes -/

theorem foldlM_addVote_ok (excl : List Nat) (wts : List (Nat × Rat)) :
    ∀ (cands : List (Nat × Rat)) fc₀,
      (∀ c ∈ cands, c.1 ∉ excl → (lookupWeight wts c.1).isSome) →
      ∃ fc, cands.foldlM (addVote excl wts) fc₀ = Except.ok fc := by
  intro cands
  induction cands with
  | nil => exact fun fc₀ _ => ⟨fc₀, rfl⟩
  | cons c cs ih =>
    intro fc₀ hW
    rw [List.foldlM_cons]
    by_cases hx : c.1 ∈ excl
    · rw [addVote_excluded excl wts fc₀ c hx, vbind_ok]
      exact ih fc₀ (fun d hd => hW d (List.mem_cons_of_mem c hd))
    · obtain ⟨w, hw⟩ := Option.isSome_iff_exists.mp
        (hW c (List.mem_cons_self c cs) hx)

      rw [addVote_eq excl wts fc₀ c hx w hw, vbind_ok]
      exact ih _ (fun d hd => hW d (List.mem_cons_of_mem c hd))

/-- The keys of the support map, as determined by the candidate list alone
(weights play no part). -/
def keyFold (excl : List Nat) : List Rat → List (Nat × Rat) → List Rat
  | ks, [] => ks
  | ks, c :: cs =>
    keyFold excl
      (if c.1 ∈ excl then ks else if c.2 ∈ ks then ks else ks ++ [c.2]) cs

theorem foldlM_addVote_keys (excl : List Nat) (wts : List (Nat × Rat)) :
    ∀ (cands : List (Nat × Rat)) (fc₀ fc : List (Rat × Rat)),
      cands.foldlM (addVote excl wts) fc₀ = Except.ok fc →
      fc.map Prod.fst = keyFold excl (fc₀.map Prod.fst) cands := by
  intro cands
  induction cands with
  | nil =>
    intro fc₀ fc h
    cases h
    rfl
  | cons c cs ih =>
    intro fc₀ fc h
    rw [List.foldlM_cons] at h
    by_cases hx : c.1 ∈ excl
    · rw [addVote_excluded excl wts fc₀ c hx, vbind_ok] at h
      rw [keyFold, if_pos hx]
      exact ih fc₀ fc h
    · cases hl : lookupWeight wts c.1 with
      | none =>
        rw [addVote_missing_weight excl wts fc₀ c hx hl, vbind_error] at h
        exact Except.noConfusion h
      | some w =>
        rw [addVote_eq excl wts fc₀ c hx w hl, vbind_ok] at h
        rw [keyFold, if_neg hx]
        by_cases hp : (alookup fc₀ c.2).isSome
        · rw [if_pos hp] at h
          rw [if_pos ((alookup_isSome_iff fc₀ c.2).mp hp)]
          have := ih _ fc h
          rw [this, bump_map_fst]
        · rw [if_neg hp] at h
          rw [if_neg (fun hm => hp ((alookup_isSome_iff fc₀ c.2).mpr hm))]
          have := ih _ fc h
          rw [this]
          simp

/-- C10: For any two weight tables under which every surviving source's
weight lookup succeeds, the voter run on the same candidate set produces
the same outcome for the (period, field): the selected value depends only
on the surviving candidate values, never on the weight magnitudes. -/
theorem winner_independent_of_weights (excl : List Nat)
    (wts1 wts2 : List (Nat × Rat)) (cands : List (Nat × Rat))
    (h1 : ∀ c ∈ cands, c.1 ∉ excl → (lookupWeight wts1 c.1).isSome)
    (h2 : ∀ c ∈ cands, c.1 ∉ excl → (lookupWeight wts2 c.1).isSome) :
    voteField excl wts1 cands = voteField excl wts2 cands := by
  obtain ⟨fc1, hfc1⟩ := foldlM_addVote_ok excl wts1 cands [] h1
  obtain ⟨fc2, hfc2⟩ := foldlM_addVote_ok excl wts2 cands [] h2
  have k1 := foldlM_addVote_keys excl wts1 cands [] fc1 hfc1
  have k2 := foldlM_addVote_keys excl wts2 cands [] fc2 hfc2
  unfold voteField supportMap
  rw [hfc1, hfc2]
  dsimp only
  rw [k1, k2]

/-- Witness for C10: radically different weights, same winning value. -/
theorem winner_independent_of_weights_witness :
    voteField [] [(1, 20), (2, 50)] [(1, 10), (2, 12)] =
      voteField [] [(1, 1), (2, 1000)] [(1, 10), (2, 12)] :=
  winner_independent_of_weights [] [(1, 20), (2, 50)] [(1, 1), (2, 1000)]
    [(1, 10), (2, 12)] (by decide) (by decide)

/- ### The Consensus Assembler and the Persistence Reconciler -/

/-- Pandas `.unique()`: first occurrences, in encounter order. -/
def unique {α : Type} [DecidableEq α] (l : List α) : List α :=
  l.foldl (fun acc x => if x ∈ acc then acc else acc ++ [x]) []

/-- The distinct dates of an instrument's stored prices (line 67). -/
def uniqueDates (prices : List Row) : List Nat :=
  unique (prices.map (fun r => r.date))

/-- The distinct vendors of an instrument's stored prices (lines 68-69). -/
def uniqueSources (prices : List Row) : List Nat :=
  unique (prices.map (fun r => r.vendor))

/-- The (source, value) pairs one period block contributes to one field:
the iteration of line 110 over the transposed period frame. -/
def candidates (block : List Row) (f : Field) : List (Nat × Rat) :=
  block.map (fun r => (r.vendor, r.fieldVal f))

/-- The five consensus values voted for one period. -/
structure Vals where
  vO : Rat
  vH : Rat
  vL : Rat
  vC : Rat
  vV : Rat
deriving DecidableEq, Repr

/-- Lines 101-153 for one period block: vote every one of the five fields,
any raised exception propagating. -/
def voteRowVals (excl : List Nat) (wts : List (Nat × Rat)) (block : List Row) :
    Except VError Vals := do
  let o ← voteField excl wts (candidates block Field.fOpen)
  let h ← voteField excl wts (candidates block Field.fHigh)
  let l ← voteField excl wts (candidates block Field.fLow)
  let c ← voteField excl wts (candidates block Field.fClose)
  let v ← voteField excl wts (candidates block Field.fVolume)
  Except.ok ⟨o, h, l, c, v⟩

/-- The weight lookup of lines 119-121 when the key is a price-field NAME
instead of a vendor id: the comparison `weights_df['data_vendor_id'] == f`
compares the integer vendor column against a string, so no row ever
matches, the selection is empty, and `source_weight[0]` raises. -/
def lookupWeightByField (wts : List (Nat × Rat)) (_f : Field) : Option Rat :=
  (wts.find? (fun _ => false)).map (fun w => w.2)

/-- The inner loops of lines 101-148 run against a MIS-ORIENTED frame
(sources as rows, field names as the inner keys).  `iterrows()` yields one
row per source; for its first entry `source_data = (field_name, value)`
the field name is a string, never equal to an integer identity in the
exclusion list, so it survives the exclusion check, and the weight lookup
keyed by the field name raises `KeyError` — at the very first (source,
field) pair of any non-empty block.  An empty frame iterates zero times
and writes nothing. -/
def staleVote (_excl : List Nat) (wts : List (Nat × Rat)) (block : List Row) :
    Except VError Unit :=
  match block with
  | [] => Except.ok ()
  | _ :: _ =>
    match lookupWeightByField wts Field.fOpen with
    | none => Except.error (VError.keyErrorField Field.fOpen)
    | some _ => Except.ok ()

/-- The per-period loop of lines 78-153.  `extract d` models
`tsid_prices_df.xs(date, level='date')`, `none` standing for the guarded
`KeyError`.  The `Option (Bool × List Row)` state carries the current
binding of the Python local `period_df`: `none` means unbound (a first
extraction failure raises `NameError` in the `finally:` block), and
`some (oriented, b)` means the binding holds block `b`, transposed to the
fields-by-sources orientation when `oriented` is true — which is how every
successful iteration leaves it (line 97).  On an extraction failure the
`finally:` block still runs and transposes the stale binding again: a
transposed binding flips BACK to the raw sources-by-fields orientation and
the iteration feeds field names into the weight lookup (`staleVote`); a
raw binding flips to the proper orientation and the stale block is voted
as if it were the current period's data. -/
def assemble (excl : List Nat) (wts : List (Nat × Rat))
    (extract : Nat → Option (List Row)) :
    Option (Bool × List Row) → List Nat → Except VError (List (Nat × Vals))
  | _, [] => Except.ok []
  | prev, d :: ds =>
    match extract d, prev with
    | some b, _ =>
      voteRowVals excl wts b >>= fun vals =>
      assemble excl wts extract (some (true, b)) ds >>= fun rest =>
      Except.ok ((d, vals) :: rest)
    | none, none => Except.error VError.nameError
    | none, some (oriented, b) =>
      if oriented then
        staleVote excl wts b >>= fun _ =>
        assemble excl wts extract (some (false, b)) ds
      else
        voteRowVals excl wts b >>= fun vals =>
        assemble excl wts extract (some (true, b)) ds >>= fun rest =>
        Except.ok ((d, vals) :: rest)

/-- The real extraction of the period slice from the instrument's prices:
it yields the rows dated `d`, and fails exactly when there are none. -/
def mkExtract (prices : List Row) (d : Nat) : Option (List Row) :=
  if (prices.filter (fun r => decide (r.date = d))).isEmpty then none
  else some (prices.filter (fun r => decide (r.date = d)))

/-- The `consensus_price_df` rows tagged with the consensus vendor id
(lines 72-75, 153, 158): one row per period. -/
def consensusRows (tsid : String) (vid : Nat) (rows : List (Nat × Vals)) :
    List Row :=
  rows.map (fun p =>
    ⟨tsid, p.1, vid, p.2.vO, p.2.vH, p.2.vL, p.2.vC, p.2.vV⟩)

/-- Modelled from the spec: `fetch_all_observations(store, table, tsid)`
(the `query_all_tsid_prices` collaborator): all stored rows of one
instrument, in table order. -/
def query_all_tsid_prices (store : List Row) (tsid : String) : List Row :=
  store.filter (fun r => decide (r.tsid = tsid))

/-- Modelled from the spec: `delete_rows(store, table, tsid, source) ->
success|failure` (the `delete_sql_table_rows` collaborator, which lives
outside the sources).  The operation is transactional, so a failed delete
leaves the table unchanged; `delOk` is the per-instrument success oracle. -/
def delete_rows (delOk : String → Bool) (store : List Row) (tsid : String)
    (vid : Nat) : Bool × List Row :=
  if delOk tsid then
    (true, store.filter (fun r => decide (¬ (r.tsid = tsid ∧ r.vendor = vid))))
  else (false, store)

/-- Modelled from the spec: `append_rows(store, table, rows, tsid)` (the
`df_to_sql(..., exists='append', ...)` collaborator): append only, never
overwrites. -/
def append_rows (store rows : List Row) : List Row := store ++ rows

/-- The body of the per-tsid loop of `cross_validate` (lines 59-186):
query the instrument's prices, assemble the consensus rows, then either
append directly, or — when the consensus vendor already appears among the
observed sources — delete the prior consensus rows first and append only
if that delete reports success. -/
def processTsid (vid : Nat) (wts : List (Nat × Rat)) (delOk : String → Bool)
    (store : List Row) (tsid : String) : Except VError (List Row) :=
  match assemble [vid] wts (mkExtract (query_all_tsid_prices store tsid)) none
      (uniqueDates (query_all_tsid_prices store tsid)) with
  | Except.error e => Except.error e
  | Except.ok rows =>
    if vid ∈ uniqueSources (query_all_tsid_prices store tsid) then
      if (delete_rows delOk store tsid vid).1 then
        Except.ok (append_rows (delete_rows delOk store tsid vid).2
          (consensusRows tsid vid rows))
      else Except.ok store
    else Except.ok (append_rows store (consensusRows tsid vid rows))

/-- The entry point `cross_validate(db_location, table, tsid_list,
weights_df)`: the per-tsid loop over the shared destination table.  `vid`
is the resolved identity of the excluded consensus vendor
`pySecMaster_Consensus` (the `retrieve_data_vendor_id` collaborator,
modelled from the spec as an already-resolved identity). -/
def cross_validate (vid : Nat) (wts : List (Nat × Rat)) (delOk : String → Bool)
    (store : List Row) (tsid_list : List String) : Except VError (List Row) :=
  tsid_list.foldlM (processTsid vid wts delOk) store

/- ### C4 (code bug): an empty support map crashes, it is not a gap -/

/-- C4 is violated by the code: when every candidate for a (period, field)
is excluded, `field_consensus` is empty and `max(field_consensus.keys())`
(line 152) raises a `ValueError` that propagates out of `cross_validate`,
aborting the whole run — no gap is surfaced, and no zero is defaulted.
Here the only source with data is the consensus vendor (identity 3). -/
theorem empty_support_map_raises_not_gap :
    voteField [3] [(3, 10)] [(3, 5)] = Except.error VError.emptyMax ∧
    cross_validate 3 [(3, 10)] (fun _ => true)
      [⟨"a", 1, 3, 5, 5, 5, 5, 5⟩] ["a"] = Except.error VError.emptyMax := by
  constructor
  · decide
  · decide

/- ### C7 (code bug): a failed extraction re-processes the stale block -/

/-- C7 is violated by the code: when the period slice for the second listed
date cannot be extracted, the `finally:` block (lines 94-153) still runs
against the previous period's binding — which line 97 left transposed — so
the re-transpose flips the stale frame to the raw orientation, its field
names are fed into the exclusion check and the weight lookup, and
`source_weight[0]` raises a `KeyError` that aborts the run: the instrument's
remaining periods are NOT processed, and the broken block IS processed as
if extraction had succeeded (it is what raises).  When the very first
extraction fails, the unbound `period_df` raises `NameError` instead. -/
theorem failed_extraction_aborts_run :
    assemble [9] [(1, 5)]
      (fun d => if d = 1 then some [⟨"a", 1, 1, 10, 11, 12, 13, 14⟩] else none)
      none [1, 2] =
      Except.error (VError.keyErrorField Field.fOpen) ∧
    assemble [9] [(1, 5)] (fun _ => none) none [1] =
      Except.error VError.nameError := by
  constructor
  · decide
  · decide

/- ### C3: a failed delete skips the append and the run continues -/

/-- C3: If the delete of the prior consensus rows of an instrument whose
observed sources include the consensus identity does not report success,
no append is performed, the destination table is unchanged, and the
remaining instruments are still processed. -/
theorem delete_failure_skips_append_and_run_continues (vid : Nat)
    (wts : List (Nat × Rat)) (delOk : String → Bool) (store : List Row)
    (t : String) (rest : List String) (rows : List (Nat × Vals))
    (hasm : assemble [vid] wts
      (mkExtract (query_all_tsid_prices store t)) none
      (uniqueDates (query_all_tsid_prices store t)) = Except.ok rows)
    (hvid : vid ∈ uniqueSources (query_all_tsid_prices store t))
    (hdel : delOk t = false) :
    processTsid vid wts delOk store t = Except.ok store ∧
    cross_validate vid wts delOk store (t :: rest) =
      cross_validate vid wts delOk store rest := by
  have hp : processTsid vid wts delOk store t = Except.ok store := by
    unfold processTsid
    rw [hasm]
    dsimp only
    rw [if_pos hvid]
    simp only [delete_rows, hdel, Bool.false_eq_true, if_false]
  refine ⟨hp, ?_⟩
  unfold cross_validate
  rw [List.foldlM_cons, hp, vbind_ok]

/-- Witness for C3: instrument "a" has one period with data from source 1
and from the consensus vendor 9; the delete oracle reports failure, so the
store survives untouched while the (empty) remainder is processed. -/
theorem delete_failure_skips_append_and_run_continues_witness :
    processTsid 9 [(1, 5)] (fun _ => false)
      [⟨"a", 1, 1, 10, 11, 12, 13, 14⟩, ⟨"a", 1, 9, 20, 21, 22, 23, 24⟩]
      "a" =
      Except.ok [⟨"a", 1, 1, 10, 11, 12, 13, 14⟩,
        ⟨"a", 1, 9, 20, 21, 22, 23, 24⟩] ∧
    cross_validate 9 [(1, 5)] (fun _ => false)
      [⟨"a", 1, 1, 10, 11, 12, 13, 14⟩, ⟨"a", 1, 9, 20, 21, 22, 23, 24⟩]
      ["a"] =
      cross_validate 9 [(1, 5)] (fun _ => false)
        [⟨"a", 1, 1, 10, 11, 12, 13, 14⟩, ⟨"a", 1, 9, 20, 21, 22, 23, 24⟩]
        [] :=
  delete_failure_skips_append_and_run_continues 9 [(1, 5)] (fun _ => false)
    [⟨"a", 1, 1, 10, 11, 12, 13, 14⟩, ⟨"a", 1, 9, 20, 21, 22, 23, 24⟩]
    "a" [] [(1, ⟨10, 11, 12, 13, 14⟩)] (by decide) (by decide) rfl

/- ### C6: at most one consensus row per (tsid, period) after a run -/

/-- A row is a consensus row of instrument `t` when it is tagged with the
consensus vendor identity. -/
def isConsOf (t : String) (vid : Nat) (r : Row) : Bool :=
  decide (r.tsid = t ∧ r.vendor = vid)

theorem mem_foldl_unique {α : Type} [DecidableEq α] (l : List α) :
    ∀ (acc : List α) (x : α),
      (x ∈ l.foldl (fun acc y => if y ∈ acc then acc else acc ++ [y]) acc ↔
        x ∈ acc ∨ x ∈ l) := by
  induction l with
  | nil => simp
  | cons y ys ih =>
    intro acc x
    rw [List.foldl_cons, ih]
    by_cases hy : y ∈ acc
    · rw [if_pos hy]
      constructor
      · rintro (h | h)
        · exact Or.inl h
        · exact Or.inr (List.mem_cons_of_mem y h)
      · rintro (h | h)
        · exact Or.inl h
        · rcases List.mem_cons.mp h with hh | hh
          · rw [hh]; exact Or.inl hy
          · exact Or.inr hh
    · rw [if_neg hy]
      constructor
      · rintro (h | h)
        · rcases List.mem_append.mp h with hh | hh
          · exact Or.inl hh
          · exact Or.inr (List.mem_cons.mpr (Or.inl (List.mem_singleton.mp hh)))
        · exact Or.inr (List.mem_cons_of_mem y h)
      · rintro (h | h)
        · exact Or.inl (List.mem_append.mpr (Or.inl h))
        · rcases List.mem_cons.mp h with hh | hh
          · exact Or.inl (List.mem_append.mpr (Or.inr (List.mem_singleton.mpr hh)))
          · exact Or.inr hh

theorem mem_unique {α : Type} [DecidableEq α] (l : List α) (x : α) :
    x ∈ unique l ↔ x ∈ l := by
  unfold unique
  rw [mem_foldl_unique]
  simp

theorem nodup_foldl_unique {α : Type} [DecidableEq α] (l : List α) :
    ∀ (acc : List α), acc.Nodup →
      (l.foldl (fun acc y => if y ∈ acc then acc else acc ++ [y]) acc).Nodup := by
  induction l with
  | nil => intro acc h; exact h
  | cons y ys ih =>
    intro acc h
    rw [List.foldl_cons]
    by_cases hy : y ∈ acc
    · rw [if_pos hy]; exact ih acc h
    · rw [if_neg hy]
      refine ih _ (List.Nodup.append h (List.nodup_singleton y) ?_)
      intro a ha hay
      rw [List.mem_singleton.mp hay] at ha
      exact hy ha

theorem unique_nodup {α : Type} [DecidableEq α] (l : List α) :
    (unique l).Nodup :=
  nodup_foldl_unique l [] List.nodup_nil

theorem mkExtract_eq_some (p : List Row) (d : Nat) (h : d ∈ uniqueDates p) :
    mkExtract p d = some (p.filter (fun r => decide (r.date = d))) := by
  have hne : p.filter (fun r => decide (r.date = d)) ≠ [] := by
    rw [uniqueDates, mem_unique] at h
    obtain ⟨r, hr, hrd⟩ := List.mem_map.mp h
    exact List.ne_nil_of_mem (List.mem_filter.mpr ⟨hr, decide_eq_true hrd⟩)
  unfold mkExtract
  cases hf : p.filter (fun r => decide (r.date = d)) with
  | nil => exact absurd hf hne
  | cons a as => rfl

theorem mkExtract_isSome (p : List Row) :
    ∀ d ∈ uniqueDates p, (mkExtract p d).isSome := by
  intro d hd
  rw [mkExtract_eq_some p d hd]
  rfl

theorem assemble_dates (excl : List Nat) (wts : List (Nat × Rat))
    (ext : Nat → Option (List Row)) :
    ∀ (dates : List Nat) (prev : Option (Bool × List Row))
      (rows : List (Nat × Vals)),
      (∀ d ∈ dates, (ext d).isSome) →
      assemble excl wts ext prev dates = Except.ok rows →
      rows.map Prod.fst = dates := by
  intro dates
  induction dates with
  | nil =>
    intro prev rows _ h
    cases h
    rfl
  | cons d ds ih =>
    intro prev rows hext h
    obtain ⟨b, hb⟩ := Option.isSome_iff_exists.mp
      (hext d (List.mem_cons_self d ds))
    unfold assemble at h
    rw [hb] at h
    dsimp only at h
    cases hv : voteRowVals excl wts b with
    | error e =>
      rw [hv, vbind_error] at h
      exact Except.noConfusion h
    | ok vals =>
      rw [hv, vbind_ok] at h
      cases hr : assemble excl wts ext (some (true, b)) ds with
      | error e =>
        rw [hr, vbind_error] at h
        exact Except.noConfusion h
      | ok rest =>
        rw [hr, vbind_ok] at h
        cases h
        simp [ih (some (true, b)) rest
          (fun u hu => hext u (List.mem_cons_of_mem d hu)) hr]

theorem consensusRows_dates (t : String) (vid : Nat) (rows : List (Nat × Vals)) :
    (consensusRows t vid rows).map (fun r => r.date) = rows.map Prod.fst := by
  simp [consensusRows, List.map_map]

theorem consensusRows_mem (t : String) (vid : Nat) (rows : List (Nat × Vals))
    (r : Row) (hr : r ∈ consensusRows t vid rows) :
    r.tsid = t ∧ r.vendor = vid := by
  obtain ⟨p, _, hp⟩ := List.mem_map.mp hr
  rw [← hp]
  exact ⟨rfl, rfl⟩

theorem consensusRows_filter_self (t : String) (vid : Nat)
    (rows : List (Nat × Vals)) :
    (consensusRows t vid rows).filter (isConsOf t vid) =
      consensusRows t vid rows := by
  rw [List.filter_eq_self]
  intro r hr
  exact decide_eq_true (consensusRows_mem t vid rows r hr)

theorem consensusRows_filter_other (t u : String) (vid : Nat)
    (hne : u ≠ t) (rows : List (Nat × Vals)) :
    (consensusRows u vid rows).filter (isConsOf t vid) = [] := by
  rw [List.filter_eq_nil_iff]
  intro r hr
  have := (consensusRows_mem u vid rows r hr).1
  simp only [isConsOf, decide_eq_true_eq]
  intro hc
  exact hne (this ▸ hc.1)

theorem deleted_filter_nil (S : List Row) (t : String) (vid : Nat) :
    ((S.filter (fun r => decide (¬ (r.tsid = t ∧ r.vendor = vid)))).filter
      (isConsOf t vid)) = [] := by
  rw [List.filter_eq_nil_iff]
  intro r hr
  have := (List.mem_filter.mp hr).2
  simp only [decide_eq_true_eq] at this
  simp only [isConsOf, decide_eq_true_eq]
  exact this

theorem vid_not_in_sources_filter (S : List Row) (t : String) (vid : Nat)
    (h : vid ∉ uniqueSources (query_all_tsid_prices S t)) :
    S.filter (isConsOf t vid) = [] := by
  rw [List.filter_eq_nil_iff]
  intro r hr
  simp only [isConsOf, decide_eq_true_eq]
  rintro ⟨h1, h2⟩
  apply h
  rw [uniqueSources, mem_unique]
  refine List.mem_map.mpr ⟨r, ?_, h2⟩
  rw [query_all_tsid_prices, List.mem_filter]
  exact ⟨hr, decide_eq_true h1⟩

theorem processTsid_cons_filter (vid : Nat) (wts : List (Nat × Rat))
    (delOk : String → Bool) (S : List Row) (t : String) (S₁ : List Row)
    (hdel : delOk t = true)
    (h : processTsid vid wts delOk S t = Except.ok S₁) :
    ∃ rows, assemble [vid] wts (mkExtract (query_all_tsid_prices S t)) none
        (uniqueDates (query_all_tsid_prices S t)) = Except.ok rows ∧
      S₁.filter (isConsOf t vid) = consensusRows t vid rows := by
  unfold processTsid at h
  cases hasm : assemble [vid] wts (mkExtract (query_all_tsid_prices S t)) none
      (uniqueDates (query_all_tsid_prices S t)) with
  | error e =>
    rw [hasm] at h
    exact Except.noConfusion h
  | ok rows =>
    rw [hasm] at h
    dsimp only at h
    refine ⟨rows, rfl, ?_⟩
    by_cases hv : vid ∈ uniqueSources (query_all_tsid_prices S t)
    · rw [if_pos hv] at h
      rw [show (delete_rows delOk S t vid).1 = true by
        simp [delete_rows, hdel]] at h
      simp only [if_true] at h
      have hdel2 : (delete_rows delOk S t vid).2 =
          S.filter (fun r => decide (¬ (r.tsid = t ∧ r.vendor = vid))) := by
        simp [delete_rows, hdel]
      cases h
      rw [append_rows, hdel2, List.filter_append, deleted_filter_nil,
        consensusRows_filter_self, List.nil_append]
    · rw [if_neg hv] at h
      cases h
      rw [append_rows, List.filter_append, vid_not_in_sources_filter S t vid hv,
        consensusRows_filter_self, List.nil_append]

theorem processTsid_other_filter (vid : Nat) (wts : List (Nat × Rat))
    (delOk : String → Bool) (S : List Row) (u : String) (S₁ : List Row)
    (t : String) (hne : u ≠ t)
    (h : processTsid vid wts delOk S u = Except.ok S₁) :
    S₁.filter (isConsOf t vid) = S.filter (isConsOf t vid) := by
  unfold processTsid at h
  cases hasm : assemble [vid] wts (mkExtract (query_all_tsid_prices S u)) none
      (uniqueDates (query_all_tsid_prices S u)) with
  | error e =>
    rw [hasm] at h
    exact Except.noConfusion h
  | ok rows =>
    rw [hasm] at h
    dsimp only at h
    by_cases hv : vid ∈ uniqueSources (query_all_tsid_prices S u)
    · rw [if_pos hv] at h
      by_cases hd : (delete_rows delOk S u vid).1
      · rw [if_pos hd] at h
        cases h
        have hdel2 : (delete_rows delOk S u vid).2 =
            S.filter (fun r => decide (¬ (r.tsid = u ∧ r.vendor = vid))) := by
          unfold delete_rows at hd ⊢
          by_cases hOk : delOk u
          · simp [hOk]
          · simp [hOk] at hd
        rw [append_rows, hdel2, List.filter_append,
          consensusRows_filter_other t u vid hne, List.append_nil]
        rw [List.filter_filter]
        apply List.filter_congr
        intro r _
        by_cases hr : isConsOf t vid r
        · have : ¬ (r.tsid = u ∧ r.vendor = vid) := by
            simp only [isConsOf, decide_eq_true_eq] at hr
            intro hc
            exact hne (hc.1 ▸ hr.1.symm ▸ rfl)
          simp [hr, this]
        · simp [hr]
      · rw [if_neg hd] at h
        cases h
        rfl
    · rw [if_neg hv] at h
      cases h
      rw [append_rows, List.filter_append,
        consensusRows_filter_other t u vid hne, List.append_nil]

theorem cross_validate_preserves_absent (vid : Nat) (wts : List (Nat × Rat))
    (delOk : String → Bool) (t : String) :
    ∀ (ts : List String) (S S' : List Row), t ∉ ts →
      cross_validate vid wts delOk S ts = Except.ok S' →
      S'.filter (isConsOf t vid) = S.filter (isConsOf t vid) := by
  intro ts
  induction ts with
  | nil =>
    intro S S' _ h
    cases h
    rfl
  | cons u us ih =>
    intro S S' hmem h
    unfold cross_validate at h
    rw [List.foldlM_cons] at h
    cases hp : processTsid vid wts delOk S u with
    | error e =>
      rw [hp, vbind_error] at h
      exact Except.noConfusion h
    | ok S₁ =>
      rw [hp, vbind_ok] at h
      have hne : u ≠ t := fun hh => hmem (hh ▸ List.mem_cons_self u us)
      rw [ih S₁ S' (fun hh => hmem (List.mem_cons_of_mem u hh)) h]
      exact processTsid_other_filter vid wts delOk S u S₁ t hne hp

/-- C6: After any successful run of cross_validate (all deletes reporting
success), the destination table holds at most one consensus row per
(tsid, period) under the consensus identity for every processed
instrument: prior consensus rows are fully superseded, never
accumulated. -/
theorem at_most_one_consensus_row_per_period (vid : Nat)
    (wts : List (Nat × Rat)) (delOk : String → Bool) (ts : List String)
    (t : String) (hdel : ∀ u, delOk u = true) :
    ∀ (S S' : List Row), cross_validate vid wts delOk S ts = Except.ok S' →
      t ∈ ts →
      ((S'.filter (isConsOf t vid)).map (fun r => r.date)).Nodup := by
  induction ts with
  | nil =>
    intro S S' _ ht
    cases ht
  | cons u us ih =>
    intro S S' h ht
    unfold cross_validate at h
    rw [List.foldlM_cons] at h
    cases hp : processTsid vid wts delOk S u with
    | error e =>
      rw [hp, vbind_error] at h
      exact Except.noConfusion h
    | ok S₁ =>
      rw [hp, vbind_ok] at h
      by_cases hmem : t ∈ us
      · exact ih S₁ S' h hmem
      · have htu : t = u := by
          rcases List.mem_cons.mp ht with hh | hh
          · exact hh
          · exact absurd hh hmem
        subst htu
        have hpres := cross_validate_preserves_absent vid wts delOk t us S₁ S'
          hmem h
        rw [hpres]
        obtain ⟨rows, hasm, hfilt⟩ :=
          processTsid_cons_filter vid wts delOk S t S₁ (hdel t) hp
        rw [hfilt, consensusRows_dates, assemble_dates _ _ _ _ _ _
          (mkExtract_isSome _) hasm]
        exact unique_nodup _

/-- Witness for C6: a one-instrument store, run once; the single produced
consensus row is unique for its period. -/
theorem at_most_one_consensus_row_per_period_witness :
    ((([⟨"a", 1, 1, 10, 11, 12, 13, 14⟩,
        ⟨"a", 1, 9, 10, 11, 12, 13, 14⟩] : List Row).filter
          (isConsOf "a" 9)).map (fun r => r.date)).Nodup :=
  at_most_one_consensus_row_per_period 9 [(1, 5)] (fun _ => true) ["a"] "a"
    (fun _ => rfl)
    [⟨"a", 1, 1, 10, 11, 12, 13, 14⟩, ⟨"a", 1, 9, 20, 21, 22, 23, 24⟩]
    [⟨"a", 1, 1, 10, 11, 12, 13, 14⟩, ⟨"a", 1, 9, 10, 11, 12, 13, 14⟩]
    (by decide) (by decide)

/- ### C2: idempotence of the whole run -/

theorem foldlM_addVote_all_excluded (excl : List Nat) (wts : List (Nat × Rat)) :
    ∀ (e : List (Nat × Rat)) (fc₀ : List (Rat × Rat)),
      (∀ c ∈ e, c.1 ∈ excl) →
      e.foldlM (addVote excl wts) fc₀ = Except.ok fc₀ := by
  intro e
  induction e with
  | nil => intro fc₀ _; rfl
  | cons c cs ih =>
    intro fc₀ he
    rw [List.foldlM_cons,
      addVote_excluded excl wts fc₀ c (he c (List.mem_cons_self c cs)), vbind_ok]
    exact ih fc₀ (fun d hd => he d (List.mem_cons_of_mem c hd))

theorem foldlM_addVote_append_excluded (excl : List Nat)
    (wts : List (Nat × Rat)) :
    ∀ (l e : List (Nat × Rat)) (fc₀ : List (Rat × Rat)),
      (∀ c ∈ e, c.1 ∈ excl) →
      (l ++ e).foldlM (addVote excl wts) fc₀ =
        l.foldlM (addVote excl wts) fc₀ := by
  intro l
  induction l with
  | nil =>
    intro e fc₀ he
    rw [List.nil_append, List.foldlM_nil]
    exact foldlM_addVote_all_excluded excl wts e fc₀ he
  | cons c cs ih =>
    intro e fc₀ he
    rw [List.cons_append, List.foldlM_cons, List.foldlM_cons]
    cases hav : addVote excl wts fc₀ c with
    | error e' => rw [vbind_error, vbind_error]
    | ok fc₁ =>
      rw [vbind_ok, vbind_ok]
      exact ih e fc₁ he

theorem voteField_append_excluded (excl : List Nat) (wts : List (Nat × Rat))
    (l e : List (Nat × Rat)) (he : ∀ c ∈ e, c.1 ∈ excl) :
    voteField excl wts (l ++ e) = voteField excl wts l := by
  unfold voteField supportMap
  rw [foldlM_addVote_append_excluded excl wts l e [] he]

theorem candidates_append (b e : List Row) (f : Field) :
    candidates (b ++ e) f = candidates b f ++ candidates e f :=
  List.map_append _ b e

theorem candidates_vendors (e : List Row) (excl : List Nat) (f : Field)
    (hv : ∀ r ∈ e, r.vendor ∈ excl) :
    ∀ c ∈ candidates e f, c.1 ∈ excl := by
  intro c hc
  obtain ⟨r, hr, hrc⟩ := List.mem_map.mp hc
  rw [← hrc]
  exact hv r hr

theorem voteRowVals_append_excluded (excl : List Nat) (wts : List (Nat × Rat))
    (b e : List Row) (hv : ∀ r ∈ e, r.vendor ∈ excl) :
    voteRowVals excl wts (b ++ e) = voteRowVals excl wts b := by
  unfold voteRowVals
  simp only [candidates_append]
  rw [voteField_append_excluded excl wts _ _
      (candidates_vendors e excl Field.fOpen hv),
    voteField_append_excluded excl wts _ _
      (candidates_vendors e excl Field.fHigh hv),
    voteField_append_excluded excl wts _ _
      (candidates_vendors e excl Field.fLow hv),
    voteField_append_excluded excl wts _ _
      (candidates_vendors e excl Field.fClose hv),
    voteField_append_excluded excl wts _ _
      (candidates_vendors e excl Field.fVolume hv)]

theorem foldl_unique_noop {α : Type} [DecidableEq α] (l : List α) :
    ∀ acc, (∀ x ∈ l, x ∈ acc) →
      l.foldl (fun acc y => if y ∈ acc then acc else acc ++ [y]) acc = acc := by
  induction l with
  | nil => intro acc _; rfl
  | cons y ys ih =>
    intro acc hall
    rw [List.foldl_cons, if_pos (hall y (List.mem_cons_self y ys))]
    exact ih acc (fun x hx => hall x (List.mem_cons_of_mem y hx))

theorem unique_append_subset {α : Type} [DecidableEq α] (l₁ l₂ : List α)
    (h : ∀ x ∈ l₂, x ∈ l₁) : unique (l₁ ++ l₂) = unique l₁ := by
  unfold unique
  rw [List.foldl_append]
  exact foldl_unique_noop l₂ _ (fun x hx => (mem_unique l₁ x).mpr (h x hx))

theorem uniqueDates_append_subset (p e : List Row)
    (hd : ∀ r ∈ e, r.date ∈ p.map (fun r => r.date)) :
    uniqueDates (p ++ e) = uniqueDates p := by
  unfold uniqueDates
  rw [List.map_append]
  apply unique_append_subset
  intro x hx
  obtain ⟨r, hr, hxd⟩ := List.mem_map.mp hx
  rw [← hxd]
  exact hd r hr

theorem mkExtract_append (p e : List Row) (d : Nat) (hd : d ∈ uniqueDates p) :
    mkExtract (p ++ e) d = some ((p.filter (fun r => decide (r.date = d))) ++
      (e.filter (fun r => decide (r.date = d)))) := by
  have hd2 : d ∈ uniqueDates (p ++ e) := by
    rw [uniqueDates, mem_unique, List.map_append, List.mem_append]
    rw [uniqueDates, mem_unique] at hd
    exact Or.inl hd
  rw [mkExtract_eq_some (p ++ e) d hd2, List.filter_append]

theorem assemble_congr (excl : List Nat) (wts : List (Nat × Rat))
    (ex₁ ex₂ : Nat → Option (List Row)) :
    ∀ (dates : List Nat) (p₁ p₂ : Option (Bool × List Row)),
      (∀ d ∈ dates, ∃ b₁ b₂, ex₁ d = some b₁ ∧ ex₂ d = some b₂ ∧
        voteRowVals excl wts b₂ = voteRowVals excl wts b₁) →
      assemble excl wts ex₂ p₂ dates = assemble excl wts ex₁ p₁ dates := by
  intro dates
  induction dates with
  | nil => intro p₁ p₂ _; rfl
  | cons d ds ih =>
    intro p₁ p₂ hpt
    obtain ⟨b₁, b₂, he₁, he₂, hvv⟩ := hpt d (List.mem_cons_self d ds)
    unfold assemble
    rw [he₁, he₂]
    dsimp only
    rw [hvv, ih (some (true, b₁)) (some (true, b₂))
      (fun u hu => hpt u (List.mem_cons_of_mem d hu))]

theorem assemble_append_excluded (excl : List Nat) (wts : List (Nat × Rat))
    (p e : List Row) (hv : ∀ r ∈ e, r.vendor ∈ excl) :
    assemble excl wts (mkExtract (p ++ e)) none (uniqueDates p) =
      assemble excl wts (mkExtract p) none (uniqueDates p) := by
  apply assemble_congr
  intro d hdd
  refine ⟨p.filter (fun r => decide (r.date = d)),
    (p.filter (fun r => decide (r.date = d))) ++
      (e.filter (fun r => decide (r.date = d))),
    mkExtract_eq_some p d hdd, mkExtract_append p e d hdd, ?_⟩
  apply voteRowVals_append_excluded
  intro r hr
  exact hv r (List.mem_filter.mp hr).1

theorem processTsid_ok_assemble (vid : Nat) (wts : List (Nat × Rat))
    (delOk : String → Bool) (S : List Row) (t : String) (S₁ : List Row)
    (h : processTsid vid wts delOk S t = Except.ok S₁) :
    ∃ rows, assemble [vid] wts (mkExtract (query_all_tsid_prices S t)) none
      (uniqueDates (query_all_tsid_prices S t)) = Except.ok rows := by
  unfold processTsid at h
  cases hasm : assemble [vid] wts (mkExtract (query_all_tsid_prices S t)) none
      (uniqueDates (query_all_tsid_prices S t)) with
  | error e =>
    rw [hasm] at h
    exact Except.noConfusion h
  | ok rows => exact ⟨rows, rfl⟩

theorem processTsid_append_branch (vid : Nat) (wts : List (Nat × Rat))
    (delOk : String → Bool) (S : List Row) (t : String)
    (rows : List (Nat × Vals))
    (hasm : assemble [vid] wts (mkExtract (query_all_tsid_prices S t)) none
      (uniqueDates (query_all_tsid_prices S t)) = Except.ok rows)
    (hv : vid ∉ uniqueSources (query_all_tsid_prices S t)) :
    processTsid vid wts delOk S t =
      Except.ok (S ++ consensusRows t vid rows) := by
  unfold processTsid
  rw [hasm]
  dsimp only
  rw [if_neg hv]
  rfl

theorem processTsid_delete_branch (vid : Nat) (wts : List (Nat × Rat))
    (delOk : String → Bool) (S : List Row) (t : String)
    (rows : List (Nat × Vals))
    (hasm : assemble [vid] wts (mkExtract (query_all_tsid_prices S t)) none
      (uniqueDates (query_all_tsid_prices S t)) = Except.ok rows)
    (hv : vid ∈ uniqueSources (query_all_tsid_prices S t))
    (hdel : delOk t = true) :
    processTsid vid wts delOk S t =
      Except.ok ((S.filter
        (fun r => decide (¬ (r.tsid = t ∧ r.vendor = vid)))) ++
        consensusRows t vid rows) := by
  unfold processTsid
  rw [hasm]
  dsimp only
  rw [if_pos hv]
  rw [show (delete_rows delOk S t vid).1 = true by simp [delete_rows, hdel]]
  simp [append_rows, delete_rows, hdel]

theorem vid_not_source (S : List Row) (t : String) (vid : Nat)
    (hS : ∀ r ∈ S, r.vendor ≠ vid) :
    vid ∉ uniqueSources (query_all_tsid_prices S t) := by
  intro hmem
  rw [uniqueSources, mem_unique] at hmem
  obtain ⟨r, hr, hv⟩ := List.mem_map.mp hmem
  exact hS r (List.mem_filter.mp hr).1 hv

/-- The canonical consensus content a run produces for a list of
instruments, each instrument's rows assembled from the base store's own
observations. -/
inductive CanonList (vid : Nat) (wts : List (Nat × Rat)) (S : List Row) :
    List String → List Row → Prop where
  | nil : CanonList vid wts S [] []
  | cons (t : String) (ts : List String) (rows : List (Nat × Vals))
      (D : List Row)
      (hasm : assemble [vid] wts (mkExtract (query_all_tsid_prices S t)) none
        (uniqueDates (query_all_tsid_prices S t)) = Except.ok rows)
      (hD : CanonList vid wts S ts D) :
      CanonList vid wts S (t :: ts) (consensusRows t vid rows ++ D)

theorem canonList_mem (vid : Nat) (wts : List (Nat × Rat)) (S : List Row)
    {ts : List String} {D : List Row} (h : CanonList vid wts S ts D) :
    ∀ r ∈ D, r.vendor = vid ∧ r.tsid ∈ ts := by
  induction h with
  | nil =>
    intro r hr
    cases hr
  | cons t ts rows D hasm hD ih =>
    intro r hr
    rcases List.mem_append.mp hr with h1 | h1
    · have hm := consensusRows_mem t vid rows r h1
      refine ⟨hm.2, ?_⟩
      rw [hm.1]
      exact List.mem_cons_self t ts
    · obtain ⟨hv, ht⟩ := ih r h1
      exact ⟨hv, List.mem_cons_of_mem t ht⟩

theorem query_append_no_tsid (S W : List Row) (t : String)
    (hW : ∀ r ∈ W, r.tsid ≠ t) :
    query_all_tsid_prices (S ++ W) t = query_all_tsid_prices S t := by
  unfold query_all_tsid_prices
  rw [List.filter_append]
  have hw : W.filter (fun r => decide (r.tsid = t)) = [] := by
    rw [List.filter_eq_nil_iff]
    intro r hr
    simp only [decide_eq_true_eq]
    exact hW r hr
  rw [hw, List.append_nil]

/-- A first run from a consensus-free base store, over junk rows of other
instruments, appends exactly the canonical consensus content. -/
theorem run1_canon (vid : Nat) (wts : List (Nat × Rat)) (delOk : String → Bool) :
    ∀ (ts : List String), ts.Nodup → ∀ (S W S' : List Row),
      (∀ r ∈ S, r.vendor ≠ vid) →
      (∀ r ∈ W, r.tsid ∉ ts) →
      cross_validate vid wts delOk (S ++ W) ts = Except.ok S' →
      ∃ D, S' = (S ++ W) ++ D ∧ CanonList vid wts S ts D := by
  intro ts
  induction ts with
  | nil =>
    intro _ S W S' _ _ h
    refine ⟨[], ?_, CanonList.nil⟩
    cases h
    rw [List.append_nil]
  | cons t ts ih =>
    intro hnd S W S' hS hW h
    unfold cross_validate at h
    rw [List.foldlM_cons] at h
    have hq : query_all_tsid_prices (S ++ W) t = query_all_tsid_prices S t := by
      apply query_append_no_tsid
      intro r hr hh
      exact hW r hr (hh ▸ List.mem_cons_self t ts)
    cases hp : processTsid vid wts delOk (S ++ W) t with
    | error e =>
      rw [hp, vbind_error] at h
      exact Except.noConfusion h
    | ok S₁ =>
      rw [hp, vbind_ok] at h
      obtain ⟨rows, hasm⟩ := processTsid_ok_assemble _ _ _ _ _ _ hp
      rw [hq] at hasm
      have hnv : vid ∉ uniqueSources (query_all_tsid_prices (S ++ W) t) := by
        rw [hq]
        exact vid_not_source S t vid hS
      have hS₁ : S₁ = (S ++ W) ++ consensusRows t vid rows := by
        have hb := processTsid_append_branch vid wts delOk (S ++ W) t rows
          (by rw [hq]; exact hasm) hnv
        rw [hp] at hb
        exact Except.ok.inj hb
      subst hS₁
      have hW' : ∀ r ∈ W ++ consensusRows t vid rows, r.tsid ∉ ts := by
        intro r hr
        rcases List.mem_append.mp hr with h1 | h1
        · exact fun hh => hW r h1 (List.mem_cons_of_mem t hh)
        · have hm := (consensusRows_mem t vid rows r h1).1
          rw [hm]
          exact (List.nodup_cons.mp hnd).1
      have hfold : cross_validate vid wts delOk
          (S ++ (W ++ consensusRows t vid rows)) ts = Except.ok S' := by
        unfold cross_validate
        rw [← List.append_assoc]
        exact h
      obtain ⟨D, hD1, hD2⟩ := ih (List.nodup_cons.mp hnd).2 S
        (W ++ consensusRows t vid rows) S' hS hW' hfold
      refine ⟨consensusRows t vid rows ++ D, ?_,
        CanonList.cons t ts rows D hasm hD2⟩
      rw [hD1]
      simp [List.append_assoc]

/-- Re-running over already-written canonical consensus content deletes
and reproduces it exactly, wherever in the table it sits. -/
theorem run2_canon (vid : Nat) (wts : List (Nat × Rat)) (delOk : String → Bool)
    (S : List Row) (hS : ∀ r ∈ S, r.vendor ≠ vid)
    (hdel : ∀ u, delOk u = true) :
    ∀ (ts : List String) (D W₁ W₂ : List Row), ts.Nodup →
      (∀ r ∈ W₁, r.tsid ∉ ts) → (∀ r ∈ W₂, r.tsid ∉ ts) →
      CanonList vid wts S ts D →
      cross_validate vid wts delOk (S ++ W₁ ++ D ++ W₂) ts =
        Except.ok (S ++ W₁ ++ W₂ ++ D) := by
  intro ts
  induction ts with
  | nil =>
    intro D W₁ W₂ _ _ _ hC
    cases hC
    simp only [cross_validate, List.foldlM_nil, List.append_nil]
    rfl
  | cons t ts ih =>
    intro D W₁ W₂ hnd hW₁ hW₂ hC
    cases hC with
    | cons _ _ rows D' hasm hD' =>
      have htnots : t ∉ ts := (List.nodup_cons.mp hnd).1
      have hcT : ∀ r ∈ consensusRows t vid rows, r.tsid = t :=
        fun r hr => (consensusRows_mem t vid rows r hr).1
      have hcV : ∀ r ∈ consensusRows t vid rows, r.vendor = vid :=
        fun r hr => (consensusRows_mem t vid rows r hr).2
      have hD'T : ∀ r ∈ D', r.tsid ∈ ts :=
        fun r hr => (canonList_mem vid wts S hD' r hr).2
      have hW₁t : ∀ r ∈ W₁, r.tsid ≠ t :=
        fun r hr hh => hW₁ r hr (hh ▸ List.mem_cons_self t ts)
      have hW₂t : ∀ r ∈ W₂, r.tsid ≠ t :=
        fun r hr hh => hW₂ r hr (hh ▸ List.mem_cons_self t ts)
      have hD't : ∀ r ∈ D', r.tsid ≠ t :=
        fun r hr hh => htnots (hh ▸ hD'T r hr)
      have hprices : query_all_tsid_prices
          (S ++ W₁ ++ (consensusRows t vid rows ++ D') ++ W₂) t =
          query_all_tsid_prices S t ++ consensusRows t vid rows := by
        unfold query_all_tsid_prices
        simp only [List.filter_append]
        have q1 : W₁.filter (fun r => decide (r.tsid = t)) = [] := by
          rw [List.filter_eq_nil_iff]
          intro r hr
          simp only [decide_eq_true_eq]
          exact hW₁t r hr
        have q2 : (consensusRows t vid rows).filter
            (fun r => decide (r.tsid = t)) = consensusRows t vid rows := by
          rw [List.filter_eq_self]
          intro r hr
          exact decide_eq_true (hcT r hr)
        have q3 : D'.filter (fun r => decide (r.tsid = t)) = [] := by
          rw [List.filter_eq_nil_iff]
          intro r hr
          simp only [decide_eq_true_eq]
          exact hD't r hr
        have q4 : W₂.filter (fun r => decide (r.tsid = t)) = [] := by
          rw [List.filter_eq_nil_iff]
          intro r hr
          simp only [decide_eq_true_eq]
          exact hW₂t r hr
        rw [q1, q2, q3, q4]
        simp
      have hdates : ∀ r ∈ consensusRows t vid rows,
          r.date ∈ (query_all_tsid_prices S t).map (fun r => r.date) := by
        intro r hr
        have h1 : r.date ∈ (consensusRows t vid rows).map (fun r => r.date) :=
          List.mem_map_of_mem _ hr
        rw [consensusRows_dates, assemble_dates _ _ _ _ _ _
          (mkExtract_isSome _) hasm] at h1
        rw [uniqueDates, mem_unique] at h1
        exact h1
      have hvend : ∀ r ∈ consensusRows t vid rows, r.vendor ∈ [vid] := by
        intro r hr
        rw [hcV r hr]
        exact List.mem_singleton.mpr rfl
      have hasm2 : assemble [vid] wts
          (mkExtract (query_all_tsid_prices S t ++ consensusRows t vid rows))
          none (uniqueDates
            (query_all_tsid_prices S t ++ consensusRows t vid rows)) =
          Except.ok rows := by
        rw [uniqueDates_append_subset _ _ hdates,
          assemble_append_excluded [vid] wts _ _ hvend]
        exact hasm
      have hstep : processTsid vid wts delOk
          (S ++ W₁ ++ (consensusRows t vid rows ++ D') ++ W₂) t =
          Except.ok (S ++ W₁ ++ D' ++ W₂ ++ consensusRows t vid rows) := by
        by_cases hrows : rows = []
        · subst hrows
          have hnv : vid ∉ uniqueSources (query_all_tsid_prices
              (S ++ W₁ ++ (consensusRows t vid [] ++ D') ++ W₂) t) := by
            rw [hprices]
            simp only [consensusRows, List.map_nil, List.append_nil]
            exact vid_not_source S t vid hS
          have hb := processTsid_append_branch vid wts delOk
            (S ++ W₁ ++ (consensusRows t vid [] ++ D') ++ W₂) t []
            (by rw [hprices]; exact hasm2) hnv
          rw [hb]
          simp [consensusRows]
        · have hcne : consensusRows t vid rows ≠ [] := by
            simp only [consensusRows, ne_eq, List.map_eq_nil_iff]
            exact hrows
          obtain ⟨r₀, hr₀⟩ := List.exists_mem_of_ne_nil _ hcne
          have hvin : vid ∈ uniqueSources (query_all_tsid_prices
              (S ++ W₁ ++ (consensusRows t vid rows ++ D') ++ W₂) t) := by
            rw [hprices, uniqueSources, mem_unique]
            exact List.mem_map.mpr ⟨r₀,
              List.mem_append.mpr (Or.inr hr₀), hcV r₀ hr₀⟩
          have hb := processTsid_delete_branch vid wts delOk
            (S ++ W₁ ++ (consensusRows t vid rows ++ D') ++ W₂) t rows
            (by rw [hprices]; exact hasm2) hvin (hdel t)
          rw [hb]
          have hfilt : (S ++ W₁ ++ (consensusRows t vid rows ++ D') ++
              W₂).filter (fun r => decide (¬ (r.tsid = t ∧ r.vendor = vid))) =
              S ++ W₁ ++ D' ++ W₂ := by
            simp only [List.filter_append]
            have e1 : S.filter
                (fun r => decide (¬ (r.tsid = t ∧ r.vendor = vid))) = S := by
              rw [List.filter_eq_self]
              intro r hr
              simp only [decide_eq_true_eq]
              exact fun hc => hS r hr hc.2
            have e2 : W₁.filter
                (fun r => decide (¬ (r.tsid = t ∧ r.vendor = vid))) = W₁ := by
              rw [List.filter_eq_self]
              intro r hr
              simp only [decide_eq_true_eq]
              exact fun hc => hW₁t r hr hc.1
            have e3 : (consensusRows t vid rows).filter
                (fun r => decide (¬ (r.tsid = t ∧ r.vendor = vid))) = [] := by
              rw [List.filter_eq_nil_iff]
              intro r hr
              simp only [decide_eq_true_eq, not_not]
              exact ⟨hcT r hr, hcV r hr⟩
            have e4 : D'.filter
                (fun r => decide (¬ (r.tsid = t ∧ r.vendor = vid))) = D' := by
              rw [List.filter_eq_self]
              intro r hr
              simp only [decide_eq_true_eq]
              exact fun hc => hD't r hr hc.1
            have e5 : W₂.filter
                (fun r => decide (¬ (r.tsid = t ∧ r.vendor = vid))) = W₂ := by
              rw [List.filter_eq_self]
              intro r hr
              simp only [decide_eq_true_eq]
              exact fun hc => hW₂t r hr hc.1
            rw [e1, e2, e3, e4, e5]
            simp
          rw [hfilt]
      unfold cross_validate
      rw [List.foldlM_cons, hstep, vbind_ok]
      have hW₂' : ∀ r ∈ W₂ ++ consensusRows t vid rows, r.tsid ∉ ts := by
        intro r hr
        rcases List.mem_append.mp hr with h1 | h1
        · exact fun hh => hW₂ r h1 (List.mem_cons_of_mem t hh)
        · rw [hcT r h1]
          exact htnots
      have hih := ih D' W₁ (W₂ ++ consensusRows t vid rows)
        (List.nodup_cons.mp hnd).2
        (fun r hr hh => hW₁ r hr (List.mem_cons_of_mem t hh)) hW₂' hD'
      unfold cross_validate at hih
      have hmassage : S ++ W₁ ++ D' ++ (W₂ ++ consensusRows t vid rows) =
          S ++ W₁ ++ D' ++ W₂ ++ consensusRows t vid rows := by
        simp [List.append_assoc]
      rw [hmassage] at hih
      rw [hih]
      simp [List.append_assoc]

/-- C2: Running cross_validate twice on identical inputs (a base store
free of its own prior consensus rows, the same distinct instrument list,
the same weights, deletes succeeding) leaves the destination table with
exactly the same consensus rows as running it once: no duplicate rows and
no changed values. -/
theorem cross_validate_idempotent (vid : Nat) (wts : List (Nat × Rat))
    (delOk : String → Bool) (ts : List String) (S S₁ : List Row)
    (hnd : ts.Nodup) (hS : ∀ r ∈ S, r.vendor ≠ vid)
    (hdel : ∀ u, delOk u = true)
    (h : cross_validate vid wts delOk S ts = Except.ok S₁) :
    cross_validate vid wts delOk S₁ ts = Except.ok S₁ := by
  obtain ⟨D, hD1, hD2⟩ := run1_canon vid wts delOk ts hnd S [] S₁ hS
    (by intro r hr; cases hr) (by rw [List.append_nil]; exact h)
  have h2 := run2_canon vid wts delOk S hS hdel ts D [] [] hnd
    (by intro r hr; cases hr) (by intro r hr; cases hr) hD2
  rw [List.append_nil] at hD1
  simp only [List.append_nil] at h2
  rw [hD1]
  exact h2

/-- Witness for C2: one instrument, one period, one real source; the first
run appends the consensus row, the second run deletes and reproduces it. -/
theorem cross_validate_idempotent_witness :
    cross_validate 9 [(1, 5)] (fun _ => true)
      [⟨"a", 1, 1, 10, 11, 12, 13, 14⟩, ⟨"a", 1, 9, 10, 11, 12, 13, 14⟩]
      ["a"] =
      Except.ok [⟨"a", 1, 1, 10, 11, 12, 13, 14⟩,
        ⟨"a", 1, 9, 10, 11, 12, 13, 14⟩] :=
  cross_validate_idempotent 9 [(1, 5)] (fun _ => true) ["a"]
    [⟨"a", 1, 1, 10, 11, 12, 13, 14⟩]
    [⟨"a", 1, 1, 10, 11, 12, 13, 14⟩, ⟨"a", 1, 9, 10, 11, 12, 13, 14⟩]
    (by decide) (by decide) (fun _ => rfl) (by decide)

end PySecMaster
